import Mathlib

/-!
Verification of the model-selection and recognition core of the
AIND-Recognizer repository (`my_model_selectors.py`, `my_recognizer.py`).

Shallow embedding conventions:
* A Python call that may raise is modelled as `Except Unit α` (`.error ()` is a
  raised exception, payload abstracted).
* Log-likelihood floats are modelled as rationals `ℚ`; the IEEE infinities the
  source uses as sentinels (`float("inf")`, `float("-inf")`) are modelled by
  `Option ℚ` with `none` playing the infinite value, together with comparison
  functions that mirror IEEE ordering for those sentinels.
* The external GaussianHMM adapter, KFold splitter and `combine_sequences`
  utility are abstracted as environment fields that return `Except Unit _`
  values; the control flow of the Python source is translated literally.
-/

namespace AslRecognizer

/-- Result of a Python call that may raise: `.error ()` is a raised exception
(payload abstracted), `.ok a` is a normal return. -/
abbrev PyRes (α : Type) : Type := Except Unit α

/-- Whether a fallible call returned normally. -/
def exOk {α : Type} : PyRes α → Bool
  | .ok _ => true
  | .error _ => false

/-- The source's pattern `log_l = float("-inf"); try: log_l = score(...)
except: pass`, with `none` standing for `-inf`. -/
def exToOpt {α : Type} : PyRes α → Option α
  | .ok a => some a
  | .error _ => none

/-- Lift a strict comparison on `ℚ` to `Option ℚ` where `none` on the right is
the initial infinite sentinel (always beaten by a finite value) and `none` on
the left never beats anything.  With `r a b = decide (a < b)` this is IEEE
`x < inf`; with `r a b = decide (b < a)` it is IEEE `x > -inf`. -/
def strictOpt (r : ℚ → ℚ → Bool) : Option ℚ → Option ℚ → Bool
  | none, _ => false
  | some _, none => true
  | some a, some b => r a b

/-- Comparison `a < b` where `none` is `float("inf")`: the BIC loop's comparison
`bic < max_bic` with `max_bic` initialised to `math.inf`. -/
def ltInf : Option ℚ → Option ℚ → Bool :=
  strictOpt (fun a b => decide (a < b))

/-- Comparison `a > b` where `none` is `float("-inf")`: the comparison `x > max` used by
the DIC and CV loops and by the recognizer, with the maximum initialised to
`-math.inf`. -/
def gtNegInf : Option ℚ → Option ℚ → Bool :=
  strictOpt (fun a b => decide (b < a))

/-- One running-best update: adopt the new (tag, value) pair exactly when its
value strictly improves on the current one. -/
def pickStep {α β : Type} (cmp : β → β → Bool) (st : α × β) (p : α × β) : α × β :=
  if cmp p.2 st.2 then p else st

/-- Fold a running-best update over a list of (tag, value) pairs. -/
def pickBest {α β : Type} (cmp : β → β → Bool) (st : α × β) (l : List (α × β)) : α × β :=
  l.foldl (pickStep cmp) st

theorem pickBest_nil {α β : Type} (cmp : β → β → Bool) (st : α × β) :
    pickBest cmp st [] = st := rfl

theorem pickBest_cons {α β : Type} (cmp : β → β → Bool) (st : α × β) (p : α × β)
    (l : List (α × β)) :
    pickBest cmp st (p :: l) = pickBest cmp (pickStep cmp st p) l := rfl

theorem pickBest_append {α β : Type} (cmp : β → β → Bool) (st : α × β)
    (l1 l2 : List (α × β)) :
    pickBest cmp st (l1 ++ l2) = pickBest cmp (pickBest cmp st l1) l2 :=
  List.foldl_append ..

/-- Complete characterisation of the strict-improvement running best: either
nothing ever improved on the initial state, or the result is an element of the
list that strictly beats the initial value and every element before it, and
that no element of the list strictly beats. -/
theorem pickBest_spec {α β : Type} (cmp : β → β → Bool)
    (htr : ∀ a b c, cmp a b = true → cmp b c = true → cmp a c = true)
    (hirr : ∀ a, cmp a a = false)
    (hlin : ∀ a b, cmp a b = false → cmp b a = true ∨ a = b)
    (l : List (α × β)) (st : α × β) :
    (pickBest cmp st l = st ∧ ∀ p ∈ l, cmp p.2 st.2 = false) ∨
    (∃ pre q suf, l = pre ++ q :: suf ∧ pickBest cmp st l = q ∧
      cmp q.2 st.2 = true ∧ (∀ p ∈ pre, cmp q.2 p.2 = true) ∧
      (∀ p ∈ l, cmp p.2 q.2 = false)) := by
  induction l generalizing st with
  | nil =>
    left
    exact ⟨rfl, by simp⟩
  | cons p l ih =>
    have hasym : ∀ a b, cmp a b = true → cmp b a = false := by
      intro a b hab
      cases hba : cmp b a with
      | false => rfl
      | true => exact absurd (htr a b a hab hba) (by simp [hirr a])
    rw [pickBest_cons]
    cases hc : cmp p.2 st.2 with
    | true =>
      have hstep : pickStep cmp st p = p := by simp [pickStep, hc]
      rw [hstep]
      rcases ih p with ⟨h1, h2⟩ | ⟨pre, q, suf, hl, hq, hqs, hpre, hopt⟩
      · right
        refine ⟨[], p, l, by simp, h1, hc, by simp, ?_⟩
        intro r hr
        rcases List.mem_cons.mp hr with rfl | hr
        · exact hirr _
        · exact h2 r hr
      · right
        refine ⟨p :: pre, q, suf, by simp [hl], hq, htr _ _ _ hqs hc, ?_, ?_⟩
        · intro r hr
          rcases List.mem_cons.mp hr with rfl | hr
          · exact hqs
          · exact hpre r hr
        · intro r hr
          rcases List.mem_cons.mp hr with rfl | hr
          · exact hasym _ _ hqs
          · exact hopt r hr
    | false =>
      have hstep : pickStep cmp st p = st := by simp [pickStep, hc]
      rw [hstep]
      rcases ih st with ⟨h1, h2⟩ | ⟨pre, q, suf, hl, hq, hqs, hpre, hopt⟩
      · left
        refine ⟨h1, ?_⟩
        intro r hr
        rcases List.mem_cons.mp hr with rfl | hr
        · exact hc
        · exact h2 r hr
      · right
        have hqp : cmp q.2 p.2 = true := by
          rcases hlin p.2 st.2 hc with hs | hs
          · exact htr _ _ _ hqs hs
          · rw [hs]; exact hqs
        refine ⟨p :: pre, q, suf, by simp [hl], hq, hqs, ?_, ?_⟩
        · intro r hr
          rcases List.mem_cons.mp hr with rfl | hr
          · exact hqp
          · exact hpre r hr
        · intro r hr
          rcases List.mem_cons.mp hr with rfl | hr
          · exact hasym _ _ hqp
          · exact hopt r hr

theorem strictOpt_trans (r : ℚ → ℚ → Bool)
    (hr : ∀ a b c, r a b = true → r b c = true → r a c = true) :
    ∀ x y z, strictOpt r x y = true → strictOpt r y z = true → strictOpt r x z = true := by
  intro x y z hxy hyz
  cases x with
  | none => simp [strictOpt] at hxy
  | some a =>
    cases y with
    | none => simp [strictOpt] at hyz
    | some b =>
      cases z with
      | none => rfl
      | some c => exact hr a b c hxy hyz

theorem strictOpt_irrefl (r : ℚ → ℚ → Bool) (hr : ∀ a, r a a = false) :
    ∀ x, strictOpt r x x = false := by
  intro x
  cases x with
  | none => rfl
  | some a => exact hr a

theorem strictOpt_lin (r : ℚ → ℚ → Bool)
    (hr : ∀ a b, r a b = false → r b a = true ∨ a = b) :
    ∀ x y, strictOpt r x y = false → strictOpt r y x = true ∨ x = y := by
  intro x y hxy
  cases x with
  | none =>
    cases y with
    | none => right; rfl
    | some b => left; rfl
  | some a =>
    cases y with
    | none => simp [strictOpt] at hxy
    | some b =>
      rcases hr a b hxy with h | h
      · left; exact h
      · right; rw [h]

theorem rlt_trans : ∀ a b c : ℚ, decide (a < b) = true → decide (b < c) = true →
    decide (a < c) = true := by
  intro a b c h1 h2
  simp only [decide_eq_true_eq] at h1 h2 ⊢
  exact lt_trans h1 h2

theorem rlt_irrefl : ∀ a : ℚ, decide (a < a) = false := by
  intro a; simp

theorem rlt_lin : ∀ a b : ℚ, decide (a < b) = false → decide (b < a) = true ∨ a = b := by
  intro a b h
  simp only [decide_eq_true_eq, decide_eq_false_iff_not] at h ⊢
  rcases lt_trichotomy a b with h1 | h1 | h1
  · exact absurd h1 h
  · right; exact h1
  · left; exact h1

theorem rgt_trans : ∀ a b c : ℚ, decide (b < a) = true → decide (c < b) = true →
    decide (c < a) = true := by
  intro a b c h1 h2
  simp only [decide_eq_true_eq] at h1 h2 ⊢
  exact lt_trans h2 h1

theorem rgt_irrefl : ∀ a : ℚ, decide (a < a) = false := rlt_irrefl

theorem rgt_lin : ∀ a b : ℚ, decide (b < a) = false → decide (a < b) = true ∨ a = b := by
  intro a b h
  simp only [decide_eq_true_eq, decide_eq_false_iff_not] at h ⊢
  rcases lt_trichotomy a b with h1 | h1 | h1
  · left; exact h1
  · right; exact h1
  · exact absurd h1 h

theorem ltInf_trans : ∀ x y z, ltInf x y = true → ltInf y z = true → ltInf x z = true :=
  strictOpt_trans _ rlt_trans

theorem ltInf_irrefl : ∀ x, ltInf x x = false := strictOpt_irrefl _ rlt_irrefl

theorem ltInf_lin : ∀ x y, ltInf x y = false → ltInf y x = true ∨ x = y :=
  strictOpt_lin _ rlt_lin

theorem gtNegInf_trans : ∀ x y z, gtNegInf x y = true → gtNegInf y z = true →
    gtNegInf x z = true :=
  strictOpt_trans _ (fun a b c h1 h2 => rgt_trans a b c h1 h2)

theorem gtNegInf_irrefl : ∀ x, gtNegInf x x = false := strictOpt_irrefl _ rgt_irrefl

theorem gtNegInf_lin : ∀ x y, gtNegInf x y = false → gtNegInf y x = true ∨ x = y :=
  strictOpt_lin _ (fun a b h => rgt_lin a b h)

/-- If every step of a fold is a `pickBest` run over a block of pairs, the
whole fold is a `pickBest` run over the concatenation of the blocks. -/
theorem foldl_step_flatten {α β γ : Type} (cmp : β → β → Bool)
    (step : α × β → γ → α × β) (g : γ → List (α × β)) :
    ∀ (l : List γ) (st : α × β),
      (∀ st i, i ∈ l → step st i = pickBest cmp st (g i)) →
      l.foldl step st = pickBest cmp st (l.map g).flatten := by
  intro l
  induction l with
  | nil => intro st _; rfl
  | cons i l ih =>
    intro st h
    show l.foldl step (step st i) = _
    rw [h st i (by simp), ih (pickBest cmp st (g i))
      (fun st j hj => h st j (List.mem_cons_of_mem _ hj))]
    show _ = pickBest cmp st (g i ++ (l.map g).flatten)
    rw [pickBest_append]

/-- A fold whose step is the identity on failing elements equals the fold over
the successes only. -/
theorem foldl_skip_failures {σ γ : Type} (step : σ → γ → σ) (okF : γ → Bool) :
    ∀ (l : List γ) (st : σ),
      (∀ st i, i ∈ l → okF i = false → step st i = st) →
      l.foldl step st = (l.filter okF).foldl step st := by
  intro l
  induction l with
  | nil => intro st _; rfl
  | cons i l ih =>
    intro st h
    cases hok : okF i with
    | true =>
      rw [List.filter_cons_of_pos hok]
      exact ih (step st i) (fun st j hj => h st j (List.mem_cons_of_mem _ hj))
    | false =>
      rw [List.filter_cons_of_neg (by simp [hok]), List.foldl_cons,
        h st i (by simp) hok]
      exact ih st (fun st j hj => h st j (List.mem_cons_of_mem _ hj))

/-- A fold whose step is the identity on every list element keeps the initial
state. -/
theorem foldl_id_of_skip {σ γ : Type} (step : σ → γ → σ) :
    ∀ (l : List γ) (st : σ), (∀ st i, i ∈ l → step st i = st) →
      l.foldl step st = st := by
  intro l
  induction l with
  | nil => intro st _; rfl
  | cons i l ih =>
    intro st h
    rw [List.foldl_cons, h st i (by simp)]
    exact ih st (fun st j hj => h st j (List.mem_cons_of_mem _ hj))

/-- The first component of a fold whose step either keeps the tag or adopts the
current element is the initial tag or a member of the list. -/
theorem foldl_fst_cases {β : Type} (step : ℕ × β → ℕ → ℕ × β) :
    ∀ (l : List ℕ) (st : ℕ × β),
      (∀ st i, i ∈ l → (step st i).1 = st.1 ∨ (step st i).1 = i) →
      (l.foldl step st).1 = st.1 ∨ (l.foldl step st).1 ∈ l := by
  intro l
  induction l with
  | nil => intro st _; left; rfl
  | cons i l ih =>
    intro st h
    rw [List.foldl_cons]
    rcases ih (step st i) (fun st j hj => h st j (List.mem_cons_of_mem _ hj)) with
      h1 | h1
    · rcases h st i (by simp) with h2 | h2
      · left; rw [h1, h2]
      · right; rw [h1, h2]; simp
    · right; exact List.mem_cons_of_mem _ h1

/-- Decompose a list along a decomposition of its image under `map`. -/
theorem map_decomp {α β : Type} (g : α → β) :
    ∀ (l : List α) (pre : List β) (q : β) (suf : List β),
      l.map g = pre ++ q :: suf →
      ∃ pre1 a suf1, l = pre1 ++ a :: suf1 ∧ g a = q ∧ pre = pre1.map g ∧
        suf = suf1.map g := by
  intro l
  induction l with
  | nil =>
    intro pre q suf h
    simp only [List.map_nil] at h
    exact absurd h.symm (List.append_ne_nil_of_right_ne_nil _ (by simp))
  | cons a l ih =>
    intro pre q suf h
    cases pre with
    | nil =>
      simp only [List.map_cons, List.nil_append, List.cons.injEq] at h
      exact ⟨[], a, l, by simp, h.1, by simp, h.2.symm⟩
    | cons b pre =>
      simp only [List.map_cons, List.cons_append, List.cons.injEq] at h
      rcases ih pre q suf h.2 with ⟨pre1, a1, suf1, h1, h2, h3, h4⟩
      exact ⟨a :: pre1, a1, suf1, by simp [h1], h2, by simp [h3, h.1], h4⟩

/-- Lemma: `find?` returns the element at a position whose predecessors all fail the
predicate and which itself satisfies it. -/
theorem find_at_position {α : Type} (pred : α → Bool) :
    ∀ (pre : List α) (q : α) (suf : List α),
      (∀ x ∈ pre, pred x = false) → pred q = true →
      (pre ++ q :: suf).find? pred = some q := by
  intro pre
  induction pre with
  | nil =>
    intro q suf _ hq
    simp [List.find?, hq]
  | cons x pre ih =>
    intro q suf hpre hq
    have hx : pred x = false := hpre x (by simp)
    simp only [List.cons_append, List.find?]
    rw [hx]
    exact ih q suf (fun y hy => hpre y (List.mem_cons_of_mem _ hy)) hq

/-! Embedding of `my_model_selectors.py`. -/

/-- Source loop range `range(self.min_n_components, self.max_n_components + 1)` from the
selector loops. -/
def candidateRange (minN maxN : ℕ) : List ℕ := List.range' minN (maxN + 1 - minN)

/-- Source `ModelSelector.base_model`: fit a fresh GaussianHMM at `num_states` on the
label's full data; any exception is absorbed and `None` returned.  `homeFit`
abstracts the adapter call `GaussianHMM(...).fit(self.X, self.lengths)`. -/
def base_model {M : Type} (homeFit : ℕ → PyRes M) (num_states : ℕ) : Option M :=
  match homeFit num_states with
  | .ok m => some m
  | .error _ => none

/-- Expression `len(xs[0])` as the source computes the feature count: raises `IndexError`
on an empty matrix. -/
def headRes {α : Type} : List α → PyRes α
  | [] => .error ()
  | a :: _ => .ok a

/-- Environment for `SelectorBIC.select`. -/
structure BICEnv (M : Type) where
  /-- Field `self.min_n_components` -/
  minN : ℕ
  /-- Field `self.max_n_components` -/
  maxN : ℕ
  /-- result of `GaussianHMM(n_components=i, ...).fit(self.X, self.lengths)`
  followed by `model.score(self.X, self.lengths)` inside the loop; `.error` if
  either call raises -/
  fitScore : ℕ → PyRes ℚ
  /-- Field `self.X`, the label's concatenated observation frames -/
  X : List (List ℚ)
  /-- the float value `math.log(len(self.X))`; kept abstract because the real
  logarithm of a natural number is irrational -/
  lnN : ℚ
  /-- the adapter call inside `ModelSelector.base_model` -/
  homeFit : ℕ → PyRes M

namespace SelectorBIC

/-- Body of one loop iteration of `SelectorBIC.select` (lines 82-99 of the
source): fit and score, compute `p` and `BIC`, update the running minimum; the
bare `except: continue` keeps the state unchanged on any raise. -/
def step {M : Type} (env : BICEnv M) (st : ℕ × Option ℚ) (i : ℕ) : ℕ × Option ℚ :=
  match env.fitScore i, headRes env.X with
  | .ok log_l, .ok row =>
    let n_features : ℚ := row.length
    let p : ℚ := (i : ℚ) ^ 2 + 2 * n_features * (i : ℚ) - 1
    let bic : ℚ := (-2) * log_l + p * env.lnN
    if ltInf (some bic) st.2 then (i, some bic) else st
  | _, _ => st

/-- State of `(max_components, max_bic)` after the candidate loop;
`max_components` starts at `min_n_components` and `max_bic` at `math.inf`. -/
def loopState {M : Type} (env : BICEnv M) : ℕ × Option ℚ :=
  (candidateRange env.minN env.maxN).foldl (step env) (env.minN, none)

/-- The winning state count. -/
def best {M : Type} (env : BICEnv M) : ℕ := (loopState env).1

/-- Source `SelectorBIC.select`: search, then return a fresh `base_model` fit. -/
def select {M : Type} (env : BICEnv M) : Option M :=
  base_model env.homeFit (best env)

end SelectorBIC

/-- Environment for `SelectorDIC.select`. -/
structure DICEnv (M : Type) where
  /-- Field `self.min_n_components` -/
  minN : ℕ
  /-- Field `self.max_n_components` -/
  maxN : ℕ
  /-- Field `self.this_word` -/
  this_word : String
  /-- keys of `self.hwords` in dict iteration order -/
  labels : List String
  /-- Result of `model.score(X_w, lengths_w)` where `model` is the GaussianHMM fit at
  `i` states on this word's data and `(X_w, lengths_w) = self.hwords[w]`;
  a fit failure at `i` states shows up as `.error` for every `w` -/
  score : ℕ → String → PyRes ℚ
  /-- the adapter call inside `ModelSelector.base_model` -/
  homeFit : ℕ → PyRes M

namespace SelectorDIC

/-- The inner accumulation `word_score += model.score(X, lengths)` over the
labels, skipping `self.this_word`; the first raise aborts the candidate. -/
def sumOthers {M : Type} (env : DICEnv M) (i : ℕ) (acc : ℚ) :
    List String → PyRes ℚ
  | [] => .ok acc
  | w :: ws =>
    if w = env.this_word then sumOthers env i acc ws
    else
      match env.score i w with
      | .error e => .error e
      | .ok v => sumOthers env i (acc + v) ws

/-- Body of one loop iteration of `SelectorDIC.select` (lines 120-137): own
score, sum of scores on all other labels, `DIC = own - (1/(M-1))*sum`, update
the running maximum.  A raise anywhere (including `ZeroDivisionError` when
`len(self.hwords) - 1 == 0`) keeps the state unchanged. -/
def step {M : Type} (env : DICEnv M) (st : ℕ × Option ℚ) (i : ℕ) : ℕ × Option ℚ :=
  match env.score i env.this_word with
  | .error _ => st
  | .ok this_word_score =>
    match sumOthers env i 0 env.labels with
    | .error _ => st
    | .ok word_score =>
      if env.labels.length = 1 then st
      else
        let dic : ℚ :=
          this_word_score - 1 / ((env.labels.length : ℚ) - 1) * word_score
        if gtNegInf (some dic) st.2 then (i, some dic) else st

/-- State of `(max_components, max_dic)` after the candidate loop. -/
def loopState {M : Type} (env : DICEnv M) : ℕ × Option ℚ :=
  (candidateRange env.minN env.maxN).foldl (step env) (env.minN, none)

/-- The winning state count. -/
def best {M : Type} (env : DICEnv M) : ℕ := (loopState env).1

/-- Source `SelectorDIC.select`: search, then return a fresh `base_model` fit. -/
def select {M : Type} (env : DICEnv M) : Option M :=
  base_model env.homeFit (best env)

end SelectorDIC

/-- Environment for `SelectorCV.select`. -/
structure CVEnv (M : Type) where
  /-- Field `self.min_n_components` -/
  minN : ℕ
  /-- Field `self.max_n_components` -/
  maxN : ℕ
  /-- per candidate `i`: the folds produced by
  `KFold(random_state=...).split(self.sequences)`, each fold carrying the
  result of `combine_sequences` + fit + `model.score(x_test, lengths_test)` at
  `i` states (`.error` if any of those raised); `.error` at the outer level
  means `split` itself raised (too few sequences for the fold count) -/
  folds : ℕ → PyRes (List (PyRes ℚ))
  /-- the adapter call inside `ModelSelector.base_model` -/
  homeFit : ℕ → PyRes M

namespace SelectorCV

/-- The inner fold loop of `SelectorCV.select` (lines 156-166): one
log-likelihood per fold updates the running maximum; a raise at any fold
aborts the remaining folds of this candidate but keeps the updates already
made. -/
def foldLoop (i : ℕ) (st : ℕ × Option ℚ) : List (PyRes ℚ) → ℕ × Option ℚ
  | [] => st
  | .error _ :: _ => st
  | .ok log_l :: rest =>
    foldLoop i (if gtNegInf (some log_l) st.2 then (i, some log_l) else st) rest

/-- Body of one candidate iteration: run the folds; a raise of `split` itself
skips the candidate. -/
def step {M : Type} (env : CVEnv M) (st : ℕ × Option ℚ) (i : ℕ) : ℕ × Option ℚ :=
  match env.folds i with
  | .error _ => st
  | .ok fl => foldLoop i st fl

/-- State of `(max_components, max_score)` after the candidate loop. -/
def loopState {M : Type} (env : CVEnv M) : ℕ × Option ℚ :=
  (candidateRange env.minN env.maxN).foldl (step env) (env.minN, none)

/-- The winning state count. -/
def best {M : Type} (env : CVEnv M) : ℕ := (loopState env).1

/-- Source `SelectorCV.select`: search, then return a fresh `base_model` fit on the
full data. -/
def select {M : Type} (env : CVEnv M) : Option M :=
  base_model env.homeFit (best env)

/-- The fold scores a candidate actually contributes: everything before the
first raise. -/
def okRun : List (PyRes ℚ) → List ℚ
  | [] => []
  | .error _ :: _ => []
  | .ok v :: rest => v :: okRun rest

end SelectorCV

/-- Environment for `SelectorConstant.select`. -/
structure ConstantEnv (M : Type) where
  /-- Field `self.n_constant` -/
  n_constant : ℕ
  /-- Field `self.min_n_components` (unused by this selector) -/
  minN : ℕ
  /-- Field `self.max_n_components` (unused by this selector) -/
  maxN : ℕ
  /-- the adapter call inside `ModelSelector.base_model` -/
  homeFit : ℕ → PyRes M

namespace SelectorConstant

/-- Source `SelectorConstant.select`: always a `base_model` fit at `n_constant`. -/
def select {M : Type} (env : ConstantEnv M) : Option M :=
  base_model env.homeFit env.n_constant

end SelectorConstant

/-! Embedding of `my_recognizer.py`. -/

/-- Environment for `recognize`. -/
structure RecEnv where
  /-- Field `test_set.num_items` -/
  num_items : ℕ
  /-- Keys `models.keys()` in dict iteration order -/
  words : List String
  /-- Call `test_set.get_item_Xlengths(i)`; called inside the word loop and NOT
  inside any `try` block -/
  get_item : ℕ → PyRes Unit
  /-- Result of `models[word].score(x, lengths)` for test item `i` -/
  score : String → ℕ → PyRes ℚ

namespace Recognizer

/-- The inner word loop for one test item (lines 27-39 of the source).  State:
`(log_l_values, max_l, guess)` with `max_l` initialised to `float("-inf")`
(modelled `none`) and `guess` to `None`.  `get_item_Xlengths` may raise and is
not caught; the `score` call is wrapped in `try ... except: pass` leaving the
`-inf` sentinel in place. -/
def itemLoop (env : RecEnv) (i : ℕ) :
    List String → List (String × Option ℚ) × Option ℚ × Option String →
    PyRes (List (String × Option ℚ) × Option ℚ × Option String)
  | [], st => .ok st
  | w :: ws, st =>
    match env.get_item i with
    | .error e => .error e
    | .ok _ =>
      let log_l : Option ℚ := exToOpt (env.score w i)
      let vals := st.1 ++ [(w, log_l)]
      itemLoop env i ws
        (if gtNegInf log_l st.2.1 then (vals, log_l, some w)
         else (vals, st.2.1, st.2.2))

/-- Process one test item from the initial state. -/
def recognizeItem (env : RecEnv) (i : ℕ) :
    PyRes (List (String × Option ℚ) × Option ℚ × Option String) :=
  itemLoop env i env.words ([], none, none)

/-- The outer item loop, building `probabilities` and `guesses` in test-item
order; the first uncaught raise propagates out. -/
def recognizeItems (env : RecEnv) :
    List ℕ → PyRes (List (List (String × Option ℚ)) × List (Option String))
  | [] => .ok ([], [])
  | i :: rest =>
    match recognizeItem env i with
    | .error e => .error e
    | .ok st =>
      match recognizeItems env rest with
      | .error e => .error e
      | .ok pr => .ok (st.1 :: pr.1, st.2.2 :: pr.2)

/-- Source `recognize(models, test_set)`: returns `(probabilities, guesses)`. -/
def recognize (env : RecEnv) :
    PyRes (List (List (String × Option ℚ)) × List (Option String)) :=
  recognizeItems env (List.range env.num_items)

end Recognizer

/-! Definitions written from the specification's words, for comparison with
the code-derived definitions above. -/

/-- From the spec (§4.3): `BIC = -2 L + p ln N` with
`p = i^2 + 2 f i - 1`, `f` the observation feature dimensionality and `lnN`
the logarithm of the total number of observation frames. -/
def bicSpec (L : ℕ → ℚ) (f : ℕ) (lnN : ℚ) (i : ℕ) : ℚ :=
  (-2) * L i + ((i : ℚ) ^ 2 + 2 * (f : ℚ) * (i : ℚ) - 1) * lnN

/-- From the spec (§4.4): `DIC = L_own - (1/(M-1)) * Σ_others`, the sum running
over every label other than the target, `M` the total number of labels. -/
def dicSpec (S : ℕ → String → ℚ) (this_word : String) (labels : List String)
    (i : ℕ) : ℚ :=
  S i this_word -
    1 / ((labels.length : ℚ) - 1) *
      ((labels.filter (fun w => w ≠ this_word)).map (S i)).sum

/-- From the spec (§4.6): the arg-max label over a per-item score map (`none`
standing for the `-inf` sentinel), ties broken in favour of the first label in
iteration order. -/
def argmaxFirst (pairs : List (String × Option ℚ)) : Option String :=
  (pairs.find? (fun p => pairs.all (fun q => ! gtNegInf q.2 p.2))).map Prod.fst

instance {α : Type} [DecidableEq α] : DecidableEq (PyRes α)
  | .error _, .error _ => .isTrue rfl
  | .error _, .ok _ => .isFalse (fun h => Except.noConfusion h)
  | .ok _, .error _ => .isFalse (fun h => Except.noConfusion h)
  | .ok a, .ok b =>
    if h : a = b then .isTrue (h ▸ rfl)
    else .isFalse (fun hc => h (Except.ok.inj hc))

/-- A fold whose every step is a single strict-improvement update is a
`pickBest` run over the mapped list. -/
theorem foldl_eq_pickBest_map {α β γ : Type} (cmp : β → β → Bool)
    (step : α × β → γ → α × β) (g : γ → α × β) :
    ∀ (l : List γ) (st : α × β),
      (∀ st i, i ∈ l → step st i = pickStep cmp st (g i)) →
      l.foldl step st = pickBest cmp st (l.map g) := by
  intro l
  induction l with
  | nil => intro st _; rfl
  | cons i l ih =>
    intro st h
    rw [List.foldl_cons, h st i (by simp), List.map_cons, pickBest_cons]
    exact ih _ (fun st j hj => h st j (List.mem_cons_of_mem _ hj))

/-- Arg-best characterisation of a strict-improvement run over a strictly
increasing candidate list with per-candidate values `g`: the result is a
candidate whose value no candidate strictly beats, and which strictly beats
every smaller candidate (so the smallest candidate wins ties). -/
theorem pickBest_range_argbest (r : ℚ → ℚ → Bool)
    (hr1 : ∀ a b c, r a b = true → r b c = true → r a c = true)
    (hr2 : ∀ a, r a a = false)
    (hr3 : ∀ a b, r a b = false → r b a = true ∨ a = b)
    (g : ℕ → ℚ) (l : List ℕ) (c0 : ℕ)
    (hl : List.Pairwise (fun a b => a < b) l) (hne : l ≠ []) :
    ∃ c, pickBest (strictOpt r) (c0, none) (l.map (fun i => (i, some (g i)))) =
        (c, some (g c)) ∧
      c ∈ l ∧ (∀ j ∈ l, r (g j) (g c) = false) ∧
      (∀ j ∈ l, j < c → r (g c) (g j) = true) := by
  have htr := strictOpt_trans r hr1
  have hirr := strictOpt_irrefl r hr2
  have hlin := strictOpt_lin r hr3
  rcases pickBest_spec (strictOpt r) htr hirr hlin
      (l.map (fun i => (i, some (g i)))) (c0, none) with
    ⟨_, h2⟩ | ⟨pre, q, suf, hdec, hres, _, hpre, hopt⟩
  · rcases List.exists_mem_of_ne_nil l hne with ⟨a, ha⟩
    have := h2 (a, some (g a)) (List.mem_map_of_mem _ ha)
    simp [strictOpt] at this
  · rcases map_decomp (fun i => (i, some (g i))) l pre q suf hdec with
      ⟨pre1, c, suf1, hld, hgc, hprem, _⟩
    refine ⟨c, by rw [hres, ← hgc], ?_, ?_, ?_⟩
    · rw [hld]
      exact List.mem_append_right _ (List.mem_cons_self _ _)
    · intro j hj
      have hmem : (j, some (g j)) ∈ l.map (fun i => (i, some (g i))) :=
        List.mem_map_of_mem _ hj
      have := hopt _ hmem
      rw [← hgc] at this
      exact this
    · intro j hj hjc
      rw [hld] at hl hj
      rcases List.mem_append.mp hj with hj1 | hj1
      · have : (j, some (g j)) ∈ pre := by
          rw [hprem]; exact List.mem_map_of_mem _ hj1
        have := hpre _ this
        rw [← hgc] at this
        exact this
      · rcases List.mem_cons.mp hj1 with rfl | hj1
        · exact absurd hjc (lt_irrefl _)
        · have hcj : c < j :=
            (List.pairwise_cons.mp (List.pairwise_append.mp hl).2.1).1 j hj1
          exact absurd hjc (not_lt_of_gt hcj)

/-- The candidate list is strictly increasing. -/
theorem candidateRange_pairwise (minN maxN : ℕ) :
    List.Pairwise (fun a b => a < b) (candidateRange minN maxN) :=
  List.pairwise_lt_range' ..

/-- Membership bounds for the candidate list. -/
theorem candidateRange_bounds {minN maxN i : ℕ} (hmin : minN ≤ maxN)
    (h : i ∈ candidateRange minN maxN) : minN ≤ i ∧ i ≤ maxN := by
  have := List.mem_range'_1.mp h
  omega

/-- The candidate list is nonempty when the range is sensible. -/
theorem candidateRange_ne_nil {minN maxN : ℕ} (hmin : minN ≤ maxN) :
    candidateRange minN maxN ≠ [] := by
  have : minN ∈ candidateRange minN maxN := List.mem_range'_1.mpr (by omega)
  intro h
  rw [h] at this
  exact List.not_mem_nil _ this

namespace SelectorBIC

/-- A successful candidate's loop body is a single strict-improvement update
with the BIC value of the spec's formula. -/
theorem bicStepOk {M : Type} (env : BICEnv M) (st : ℕ × Option ℚ) (i : ℕ) (L : ℚ)
    (row : List ℚ) (rest : List (List ℚ))
    (hfs : env.fitScore i = .ok L) (hX : env.X = row :: rest) :
    step env st i = pickStep ltInf st (i, some (bicSpec (fun _ => L) row.length env.lnN i)) := by
  simp only [step, hfs, hX, headRes, bicSpec, pickStep]

end SelectorBIC

/-- C3: for every label and candidate state count in range, `SelectorBIC`
scores the candidate as `BIC = -2 L + p ln N` with `p = i^2 + 2 f i - 1`,
`f` the feature dimensionality (row width of `self.X`) and `N` the frame
count, tracks the minimum BIC, and records a candidate as best exactly when
its BIC strictly improves on the minimum so far — so the winner attains the
minimum BIC and strictly beats every smaller candidate. -/
theorem bic_min_tracking {M : Type} (env : BICEnv M) (Lf : ℕ → ℚ)
    (row : List ℚ) (rest : List (List ℚ))
    (hL : ∀ i ∈ candidateRange env.minN env.maxN, env.fitScore i = .ok (Lf i))
    (hX : env.X = row :: rest)
    (hmin : env.minN ≤ env.maxN) :
    SelectorBIC.best env ∈ candidateRange env.minN env.maxN ∧
    (SelectorBIC.loopState env).2 =
      some (bicSpec Lf row.length env.lnN (SelectorBIC.best env)) ∧
    (∀ j ∈ candidateRange env.minN env.maxN,
      bicSpec Lf row.length env.lnN (SelectorBIC.best env) ≤
        bicSpec Lf row.length env.lnN j) ∧
    (∀ j ∈ candidateRange env.minN env.maxN, j < SelectorBIC.best env →
      bicSpec Lf row.length env.lnN (SelectorBIC.best env) <
        bicSpec Lf row.length env.lnN j) := by
  have hloop : SelectorBIC.loopState env =
      pickBest ltInf (env.minN, none)
        ((candidateRange env.minN env.maxN).map
          (fun i => (i, some (bicSpec Lf row.length env.lnN i)))) := by
    apply foldl_eq_pickBest_map
    intro st i hi
    have h1 := SelectorBIC.bicStepOk env st i (Lf i) row rest (hL i hi) hX
    simpa [bicSpec] using h1
  rcases pickBest_range_argbest (fun a b => decide (a < b)) rlt_trans rlt_irrefl
      rlt_lin (bicSpec Lf row.length env.lnN) (candidateRange env.minN env.maxN)
      env.minN (candidateRange_pairwise _ _) (candidateRange_ne_nil hmin) with
    ⟨c, hq, hc, hopt, hfirst⟩
  have hlt : ltInf = strictOpt (fun a b => decide (a < b)) := rfl
  have hbest : SelectorBIC.best env = c := by
    rw [SelectorBIC.best, hloop, hlt, hq]
  refine ⟨hbest ▸ hc, ?_, ?_, ?_⟩
  · rw [hloop, hlt, hq, hbest]
  · intro j hj
    have := hopt j hj
    rw [hbest]
    simp only [decide_eq_false_iff_not, not_lt] at this
    exact this
  · intro j hj hjc
    rw [hbest] at hjc ⊢
    have := hfirst j hj hjc
    simpa using this

/-- Concrete environment used by witnesses for the BIC claims. -/
def wBIC : BICEnv Unit := ⟨2, 3, fun _ => .ok 1, [[1, 2]], 1, fun _ => .ok ()⟩

/-- Witness for `bic_min_tracking` at a concrete environment. -/
theorem bic_min_tracking_witness :
    SelectorBIC.best wBIC ∈ candidateRange wBIC.minN wBIC.maxN ∧
    (SelectorBIC.loopState wBIC).2 =
      some (bicSpec (fun _ => 1) 2 wBIC.lnN (SelectorBIC.best wBIC)) ∧
    (∀ j ∈ candidateRange wBIC.minN wBIC.maxN,
      bicSpec (fun _ => 1) 2 wBIC.lnN (SelectorBIC.best wBIC) ≤
        bicSpec (fun _ => 1) 2 wBIC.lnN j) ∧
    (∀ j ∈ candidateRange wBIC.minN wBIC.maxN, j < SelectorBIC.best wBIC →
      bicSpec (fun _ => 1) 2 wBIC.lnN (SelectorBIC.best wBIC) <
        bicSpec (fun _ => 1) 2 wBIC.lnN j) :=
  bic_min_tracking wBIC (fun _ => 1) [1, 2] [] (by decide) rfl (by decide)

namespace SelectorDIC

/-- When every score call succeeds, the inner accumulation returns the
accumulator plus the sum over all labels other than the target. -/
theorem sumOthers_ok {M : Type} (env : DICEnv M) (i : ℕ) (S : String → ℚ)
    (hS : ∀ w, env.score i w = .ok (S w)) :
    ∀ (ws : List String) (acc : ℚ),
      sumOthers env i acc ws =
        .ok (acc + ((ws.filter (fun w => w ≠ env.this_word)).map S).sum) := by
  intro ws
  induction ws with
  | nil => intro acc; simp [sumOthers]
  | cons w ws ih =>
    intro acc
    by_cases h : w = env.this_word
    · rw [sumOthers, if_pos h, ih acc, List.filter_cons_of_neg (by simp [h])]
    · rw [sumOthers, if_neg h, hS w]
      show sumOthers env i (acc + S w) ws = _
      rw [ih (acc + S w), List.filter_cons_of_pos (by simp [h]), List.map_cons,
        List.sum_cons]
      congr 1
      ring

/-- A fully successful candidate's loop body is a single strict-improvement
update with the DIC value of the spec's formula. -/
theorem dicStepOk {M : Type} (env : DICEnv M) (st : ℕ × Option ℚ) (i : ℕ)
    (S : String → ℚ) (hS : ∀ w, env.score i w = .ok (S w))
    (hM : env.labels.length ≠ 1) :
    step env st i =
      pickStep gtNegInf st (i, some (dicSpec (fun _ => S) env.this_word env.labels i)) := by
  rw [step, hS env.this_word, sumOthers_ok env i S hS env.labels 0]
  simp only [if_neg hM, zero_add, dicSpec, pickStep]

end SelectorDIC

/-- C4: for every label and candidate state count, `SelectorDIC` computes
`DIC = L_own - (1/(M-1)) * Σ_others` with the sum over every other label in
the shared mapping and `M` the total number of labels, and selects the
candidate with maximum DIC (smallest candidate on ties). -/
theorem dic_max_tracking {M : Type} (env : DICEnv M) (S : ℕ → String → ℚ)
    (hS : ∀ i ∈ candidateRange env.minN env.maxN, ∀ w, env.score i w = .ok (S i w))
    (hM : 2 ≤ env.labels.length)
    (hmin : env.minN ≤ env.maxN) :
    SelectorDIC.best env ∈ candidateRange env.minN env.maxN ∧
    (SelectorDIC.loopState env).2 =
      some (dicSpec S env.this_word env.labels (SelectorDIC.best env)) ∧
    (∀ j ∈ candidateRange env.minN env.maxN,
      dicSpec S env.this_word env.labels j ≤
        dicSpec S env.this_word env.labels (SelectorDIC.best env)) ∧
    (∀ j ∈ candidateRange env.minN env.maxN, j < SelectorDIC.best env →
      dicSpec S env.this_word env.labels j <
        dicSpec S env.this_word env.labels (SelectorDIC.best env)) := by
  have hloop : SelectorDIC.loopState env =
      pickBest gtNegInf (env.minN, none)
        ((candidateRange env.minN env.maxN).map
          (fun i => (i, some (dicSpec S env.this_word env.labels i)))) := by
    apply foldl_eq_pickBest_map
    intro st i hi
    have h1 := SelectorDIC.dicStepOk env st i (S i) (hS i hi) (by omega)
    simpa [dicSpec] using h1
  rcases pickBest_range_argbest (fun a b => decide (b < a))
      (fun a b c h1 h2 => rgt_trans a b c h1 h2) rgt_irrefl
      (fun a b h => rgt_lin a b h)
      (dicSpec S env.this_word env.labels) (candidateRange env.minN env.maxN)
      env.minN (candidateRange_pairwise _ _) (candidateRange_ne_nil hmin) with
    ⟨c, hq, hc, hopt, hfirst⟩
  have hgt : gtNegInf = strictOpt (fun a b => decide (b < a)) := rfl
  have hbest : SelectorDIC.best env = c := by
    rw [SelectorDIC.best, hloop, hgt, hq]
  refine ⟨hbest ▸ hc, ?_, ?_, ?_⟩
  · rw [hloop, hgt, hq, hbest]
  · intro j hj
    have := hopt j hj
    rw [hbest]
    simp only [decide_eq_false_iff_not, not_lt] at this
    exact this
  · intro j hj hjc
    rw [hbest] at hjc ⊢
    have := hfirst j hj hjc
    simpa using this

/-- Concrete environment used by witnesses for the DIC claims. -/
def wDIC : DICEnv Unit :=
  ⟨2, 3, "A", ["A", "B"], fun i w => .ok (if w = "A" then (i : ℚ) else 1),
    fun _ => .ok ()⟩

/-- Witness for `dic_max_tracking` at a concrete environment. -/
theorem dic_max_tracking_witness :
    SelectorDIC.best wDIC ∈ candidateRange wDIC.minN wDIC.maxN ∧
    (SelectorDIC.loopState wDIC).2 =
      some (dicSpec (fun i w => if w = "A" then (i : ℚ) else 1) wDIC.this_word
        wDIC.labels (SelectorDIC.best wDIC)) ∧
    (∀ j ∈ candidateRange wDIC.minN wDIC.maxN,
      dicSpec (fun i w => if w = "A" then (i : ℚ) else 1) wDIC.this_word wDIC.labels j ≤
        dicSpec (fun i w => if w = "A" then (i : ℚ) else 1) wDIC.this_word wDIC.labels
          (SelectorDIC.best wDIC)) ∧
    (∀ j ∈ candidateRange wDIC.minN wDIC.maxN, j < SelectorDIC.best wDIC →
      dicSpec (fun i w => if w = "A" then (i : ℚ) else 1) wDIC.this_word wDIC.labels j <
        dicSpec (fun i w => if w = "A" then (i : ℚ) else 1) wDIC.this_word wDIC.labels
          (SelectorDIC.best wDIC)) :=
  dic_max_tracking wDIC (fun i w => if w = "A" then (i : ℚ) else 1)
    (by intro i hi w; rfl) (by decide) (by decide)

namespace SelectorCV

/-- The inner fold loop is a strict-improvement run over the scores produced
before the first raise, all tagged with the current candidate. -/
theorem foldLoop_eq_pickBest (i : ℕ) :
    ∀ (fl : List (PyRes ℚ)) (st : ℕ × Option ℚ),
      foldLoop i st fl = pickBest gtNegInf st ((okRun fl).map (fun s => (i, some s))) := by
  intro fl
  induction fl with
  | nil => intro st; rfl
  | cons r rest ih =>
    intro st
    cases r with
    | error e => rfl
    | ok v =>
      rw [foldLoop, ih, okRun, List.map_cons, pickBest_cons]
      rfl

/-- A run of successful folds contributes exactly its scores. -/
theorem okRun_map_ok : ∀ ls : List ℚ, okRun (ls.map Except.ok) = ls := by
  intro ls
  induction ls with
  | nil => rfl
  | cons v ls ih => rw [List.map_cons, okRun, ih]

/-- The fold scores a candidate contributes to the search: none if the split
raised, otherwise everything before the first raise. -/
def contrib {M : Type} (env : CVEnv M) (i : ℕ) : List ℚ :=
  match env.folds i with
  | .error _ => []
  | .ok fl => okRun fl

/-- Every candidate step is a strict-improvement run over its contributed
scores. -/
theorem step_eq_pickBest {M : Type} (env : CVEnv M) (st : ℕ × Option ℚ) (i : ℕ) :
    step env st i = pickBest gtNegInf st ((contrib env i).map (fun s => (i, some s))) := by
  rw [step, contrib]
  cases env.folds i with
  | error e => rfl
  | ok fl => exact foldLoop_eq_pickBest i fl st

/-- The whole CV loop is a strict-improvement run over all contributed fold
scores of all candidates, in order. -/
theorem loopState_eq_pickBest {M : Type} (env : CVEnv M) :
    loopState env = pickBest gtNegInf (env.minN, none)
      (((candidateRange env.minN env.maxN).map
        (fun i => (contrib env i).map (fun s => (i, some s)))).flatten) := by
  apply foldl_step_flatten
  intro st i _
  exact step_eq_pickBest env st i

end SelectorCV

/-- C1: for every label and candidate range, `SelectorCV` tracks the single
highest per-fold validation log-likelihood across all folds of all candidates
(not a per-candidate average), and the winning state count is a candidate one
of whose own folds produced that maximum observed score. -/
theorem cv_tracks_global_fold_max {M : Type} (env : CVEnv M) (scores : ℕ → List ℚ)
    (hF : ∀ i ∈ candidateRange env.minN env.maxN,
      env.folds i = .ok ((scores i).map Except.ok))
    (hne : ∃ i ∈ candidateRange env.minN env.maxN, scores i ≠ []) :
    ∃ v : ℚ, (SelectorCV.loopState env).2 = some v ∧
      SelectorCV.best env ∈ candidateRange env.minN env.maxN ∧
      v ∈ scores (SelectorCV.best env) ∧
      (∀ i ∈ candidateRange env.minN env.maxN, ∀ s ∈ scores i, s ≤ v) ∧
      SelectorCV.select env = base_model env.homeFit (SelectorCV.best env) := by
  have hcontrib : ∀ i ∈ candidateRange env.minN env.maxN,
      SelectorCV.contrib env i = scores i := by
    intro i hi
    rw [SelectorCV.contrib, hF i hi]
    exact SelectorCV.okRun_map_ok (scores i)
  have hmem : ∀ i ∈ candidateRange env.minN env.maxN, ∀ s ∈ scores i,
      (i, some s) ∈ ((candidateRange env.minN env.maxN).map
        (fun i => (SelectorCV.contrib env i).map
          (fun s => (i, (some s : Option ℚ))))).flatten := by
    intro i hi s hs
    apply List.mem_flatten.mpr
    refine ⟨(SelectorCV.contrib env i).map (fun s => (i, some s)), List.mem_map_of_mem _ hi, ?_⟩
    rw [hcontrib i hi]
    exact List.mem_map_of_mem _ hs
  rcases pickBest_spec gtNegInf gtNegInf_trans gtNegInf_irrefl gtNegInf_lin
      (((candidateRange env.minN env.maxN).map
        (fun i => (SelectorCV.contrib env i).map (fun s => (i, some s)))).flatten)
      (env.minN, none) with
    ⟨_, h2⟩ | ⟨pre, q, suf, hdec, hres, _, _, hopt⟩
  · rcases hne with ⟨i, hi, hsne⟩
    rcases List.exists_mem_of_ne_nil _ hsne with ⟨s, hs⟩
    have := h2 (i, some s) (hmem i hi s hs)
    simp [gtNegInf, strictOpt] at this
  · have hq : q ∈ ((candidateRange env.minN env.maxN).map
        (fun i => (SelectorCV.contrib env i).map (fun s => (i, (some s : Option ℚ))))).flatten := by
      rw [hdec]
      exact List.mem_append_right _ (List.mem_cons_self _ _)
    rcases List.mem_flatten.mp hq with ⟨blk, hblk, hqblk⟩
    rcases List.mem_map.mp hblk with ⟨i0, hi0, rfl⟩
    rcases List.mem_map.mp hqblk with ⟨s0, hs0, rfl⟩
    rw [hcontrib i0 hi0] at hs0
    have hloop : SelectorCV.loopState env = (i0, some s0) := by
      rw [SelectorCV.loopState_eq_pickBest, hres]
    have hbest : SelectorCV.best env = i0 := by rw [SelectorCV.best, hloop]
    refine ⟨s0, ?_, hbest ▸ hi0, hbest ▸ hs0, ?_, rfl⟩
    · rw [hloop]
    · intro i hi s hs
      have := hopt (i, some s) (hmem i hi s hs)
      simp only [gtNegInf, strictOpt, decide_eq_false_iff_not, not_lt] at this
      exact this

/-- Concrete environment used by the witness for the CV claim. -/
def wCV : CVEnv Unit :=
  ⟨2, 3, fun i => .ok (if i = 2 then [.ok 5, .ok 7] else [.ok 6]), fun _ => .ok ()⟩

/-- Witness for `cv_tracks_global_fold_max` at a concrete environment. -/
theorem cv_tracks_global_fold_max_witness :
    ∃ v : ℚ, (SelectorCV.loopState wCV).2 = some v ∧
      SelectorCV.best wCV ∈ candidateRange wCV.minN wCV.maxN ∧
      v ∈ (fun i => if i = 2 then [(5 : ℚ), 7] else [6]) (SelectorCV.best wCV) ∧
      (∀ i ∈ candidateRange wCV.minN wCV.maxN,
        ∀ s ∈ (fun i => if i = 2 then [(5 : ℚ), 7] else [6]) i, s ≤ v) ∧
      SelectorCV.select wCV = base_model wCV.homeFit (SelectorCV.best wCV) :=
  cv_tracks_global_fold_max wCV (fun i => if i = 2 then [5, 7] else [6])
    (by
      intro i hi
      by_cases h : i = 2 <;> simp [wCV, h])
    ⟨2, by decide, by decide⟩

namespace SelectorBIC

/-- Each BIC loop body keeps the running tag or adopts the current candidate. -/
theorem bicStepFst {M : Type} (env : BICEnv M) (st : ℕ × Option ℚ) (i : ℕ) :
    (step env st i).1 = st.1 ∨ (step env st i).1 = i := by
  cases hfs : env.fitScore i with
  | error e => simp [step, hfs]
  | ok L =>
    cases hh : headRes env.X with
    | error e => simp [step, hfs, hh]
    | ok row =>
      simp only [step, hfs, hh]
      split
      · right; rfl
      · left; rfl

end SelectorBIC

namespace SelectorDIC

/-- Each DIC loop body keeps the running tag or adopts the current candidate. -/
theorem dicStepFst {M : Type} (env : DICEnv M) (st : ℕ × Option ℚ) (i : ℕ) :
    (step env st i).1 = st.1 ∨ (step env st i).1 = i := by
  cases h1 : env.score i env.this_word with
  | error e => simp [step, h1]
  | ok ts =>
    cases h2 : sumOthers env i 0 env.labels with
    | error e => simp [step, h1, h2]
    | ok ws =>
      simp only [step, h1, h2]
      split
      · left; rfl
      · split
        · right; rfl
        · left; rfl

end SelectorDIC

namespace SelectorCV

/-- The inner fold loop keeps the running tag or adopts the current candidate. -/
theorem foldLoop_fst (i : ℕ) :
    ∀ (fl : List (PyRes ℚ)) (st : ℕ × Option ℚ),
      (foldLoop i st fl).1 = st.1 ∨ (foldLoop i st fl).1 = i := by
  intro fl
  induction fl with
  | nil => intro st; left; rfl
  | cons r rest ih =>
    intro st
    cases r with
    | error e => left; rfl
    | ok v =>
      rw [foldLoop]
      rcases ih (if gtNegInf (some v) st.2 then (i, some v) else st) with h | h
      · rw [h]
        by_cases hc : gtNegInf (some v) st.2 = true
        · right; simp [hc]
        · left; simp [hc]
      · right; exact h

/-- Each CV candidate body keeps the running tag or adopts the candidate. -/
theorem cvStepFst {M : Type} (env : CVEnv M) (st : ℕ × Option ℚ) (i : ℕ) :
    (step env st i).1 = st.1 ∨ (step env st i).1 = i := by
  cases hf : env.folds i with
  | error e => simp [step, hf]
  | ok fl =>
    simp only [step, hf]
    exact foldLoop_fst i fl st

end SelectorCV

/-- C8: whenever `min_n_components ≤ max_n_components`, the state count of the
model returned by each searching selector lies in
`[min_n_components, max_n_components]` (and the returned model is the
`base_model` fit at that count). -/
theorem best_components_in_range {M : Type} (envB : BICEnv M) (envD : DICEnv M)
    (envC : CVEnv M)
    (hB : envB.minN ≤ envB.maxN) (hD : envD.minN ≤ envD.maxN)
    (hC : envC.minN ≤ envC.maxN) :
    (envB.minN ≤ SelectorBIC.best envB ∧ SelectorBIC.best envB ≤ envB.maxN ∧
      SelectorBIC.select envB = base_model envB.homeFit (SelectorBIC.best envB)) ∧
    (envD.minN ≤ SelectorDIC.best envD ∧ SelectorDIC.best envD ≤ envD.maxN ∧
      SelectorDIC.select envD = base_model envD.homeFit (SelectorDIC.best envD)) ∧
    (envC.minN ≤ SelectorCV.best envC ∧ SelectorCV.best envC ≤ envC.maxN ∧
      SelectorCV.select envC = base_model envC.homeFit (SelectorCV.best envC)) := by
  refine ⟨?_, ?_, ?_⟩
  · have h := foldl_fst_cases (SelectorBIC.step envB)
      (candidateRange envB.minN envB.maxN) (envB.minN, none)
      (fun st i _ => SelectorBIC.bicStepFst envB st i)
    rcases h with h | h
    · refine ⟨?_, ?_, rfl⟩
      · rw [SelectorBIC.best, SelectorBIC.loopState, h]
      · rw [SelectorBIC.best, SelectorBIC.loopState, h]
        exact hB
    · have := candidateRange_bounds hB h
      exact ⟨this.1, this.2, rfl⟩
  · have h := foldl_fst_cases (SelectorDIC.step envD)
      (candidateRange envD.minN envD.maxN) (envD.minN, none)
      (fun st i _ => SelectorDIC.dicStepFst envD st i)
    rcases h with h | h
    · refine ⟨?_, ?_, rfl⟩
      · rw [SelectorDIC.best, SelectorDIC.loopState, h]
      · rw [SelectorDIC.best, SelectorDIC.loopState, h]
        exact hD
    · have := candidateRange_bounds hD h
      exact ⟨this.1, this.2, rfl⟩
  · have h := foldl_fst_cases (SelectorCV.step envC)
      (candidateRange envC.minN envC.maxN) (envC.minN, none)
      (fun st i _ => SelectorCV.cvStepFst envC st i)
    rcases h with h | h
    · refine ⟨?_, ?_, rfl⟩
      · rw [SelectorCV.best, SelectorCV.loopState, h]
      · rw [SelectorCV.best, SelectorCV.loopState, h]
        exact hC
    · have := candidateRange_bounds hC h
      exact ⟨this.1, this.2, rfl⟩

/-- Witness for `best_components_in_range` at concrete environments. -/
theorem best_components_in_range_witness :
    (wBIC.minN ≤ SelectorBIC.best wBIC ∧ SelectorBIC.best wBIC ≤ wBIC.maxN ∧
      SelectorBIC.select wBIC = base_model wBIC.homeFit (SelectorBIC.best wBIC)) ∧
    (wDIC.minN ≤ SelectorDIC.best wDIC ∧ SelectorDIC.best wDIC ≤ wDIC.maxN ∧
      SelectorDIC.select wDIC = base_model wDIC.homeFit (SelectorDIC.best wDIC)) ∧
    (wCV.minN ≤ SelectorCV.best wCV ∧ SelectorCV.best wCV ≤ wCV.maxN ∧
      SelectorCV.select wCV = base_model wCV.homeFit (SelectorCV.best wCV)) :=
  best_components_in_range wBIC wDIC wCV (by decide) (by decide) (by decide)

/-- Whether a BIC candidate runs to completion: its fit-and-score call
succeeds and the feature/frame computation does not raise (`self.X` is
nonempty). -/
def okBIC {M : Type} (env : BICEnv M) (i : ℕ) : Bool :=
  exOk (env.fitScore i) && !env.X.isEmpty

/-- Whether a DIC candidate runs to completion: all score calls succeed and
`1/(len(self.hwords)-1)` does not raise `ZeroDivisionError`. -/
def okDIC {M : Type} (env : DICEnv M) (i : ℕ) : Bool :=
  exOk (env.score i env.this_word) &&
    exOk (SelectorDIC.sumOthers env i 0 env.labels) &&
    !(decide (env.labels.length = 1))

namespace SelectorBIC

/-- A failing BIC candidate leaves the loop state untouched. -/
theorem bicStepSkip {M : Type} (env : BICEnv M) (st : ℕ × Option ℚ) (i : ℕ)
    (h : okBIC env i = false) : step env st i = st := by
  cases hfs : env.fitScore i with
  | error e => simp [step, hfs]
  | ok L =>
    cases hX : env.X with
    | nil => simp [step, hfs, hX, headRes]
    | cons row rest =>
      exfalso
      rw [okBIC, hfs, hX] at h
      simp [exOk] at h

end SelectorBIC

namespace SelectorDIC

/-- A failing DIC candidate leaves the loop state untouched. -/
theorem dicStepSkip {M : Type} (env : DICEnv M) (st : ℕ × Option ℚ) (i : ℕ)
    (h : okDIC env i = false) : step env st i = st := by
  cases h1 : env.score i env.this_word with
  | error e => simp [step, h1]
  | ok ts =>
    cases h2 : sumOthers env i 0 env.labels with
    | error e => simp [step, h1, h2]
    | ok ws =>
      have hlen : env.labels.length = 1 := by
        rw [okDIC, h1, h2] at h
        simpa [exOk] using h
      simp [step, h1, h2, hlen]

end SelectorDIC

/-- C5 (amended): in `SelectorBIC` and `SelectorDIC` a candidate whose fit or
score raises is skipped without affecting the comparison (the loop equals the
loop over the successful candidates only); in `SelectorCV` a candidate
competes with exactly the fold scores it produced before its first raise — a
candidate raising before any fold score is skipped entirely; if every
candidate contributes nothing, the best state count defaults to
`min_n_components`; and in every case the returned model is a fresh
`base_model` fit at the best state count performed after the loop. -/
theorem selector_skip_and_default {M : Type} (envB : BICEnv M) (envD : DICEnv M)
    (envC : CVEnv M) :
    SelectorBIC.loopState envB =
      ((candidateRange envB.minN envB.maxN).filter (okBIC envB)).foldl
        (SelectorBIC.step envB) (envB.minN, none) ∧
    SelectorDIC.loopState envD =
      ((candidateRange envD.minN envD.maxN).filter (okDIC envD)).foldl
        (SelectorDIC.step envD) (envD.minN, none) ∧
    (∀ st i, SelectorCV.step envC st i =
      pickBest gtNegInf st ((SelectorCV.contrib envC i).map (fun s => (i, some s)))) ∧
    ((∀ i ∈ candidateRange envB.minN envB.maxN, okBIC envB i = false) →
      SelectorBIC.best envB = envB.minN) ∧
    ((∀ i ∈ candidateRange envD.minN envD.maxN, okDIC envD i = false) →
      SelectorDIC.best envD = envD.minN) ∧
    ((∀ i ∈ candidateRange envC.minN envC.maxN, SelectorCV.contrib envC i = []) →
      SelectorCV.best envC = envC.minN) ∧
    SelectorBIC.select envB = base_model envB.homeFit (SelectorBIC.best envB) ∧
    SelectorDIC.select envD = base_model envD.homeFit (SelectorDIC.best envD) ∧
    SelectorCV.select envC = base_model envC.homeFit (SelectorCV.best envC) := by
  refine ⟨?_, ?_, fun st i => SelectorCV.step_eq_pickBest envC st i, ?_, ?_, ?_,
    rfl, rfl, rfl⟩
  · exact foldl_skip_failures (SelectorBIC.step envB) (okBIC envB) _ _
      (fun st i _ h => SelectorBIC.bicStepSkip envB st i h)
  · exact foldl_skip_failures (SelectorDIC.step envD) (okDIC envD) _ _
      (fun st i _ h => SelectorDIC.dicStepSkip envD st i h)
  · intro hall
    rw [SelectorBIC.best, SelectorBIC.loopState]
    rw [foldl_id_of_skip (SelectorBIC.step envB) _ _
      (fun st i hi => SelectorBIC.bicStepSkip envB st i (hall i hi))]
  · intro hall
    rw [SelectorDIC.best, SelectorDIC.loopState]
    rw [foldl_id_of_skip (SelectorDIC.step envD) _ _
      (fun st i hi => SelectorDIC.dicStepSkip envD st i (hall i hi))]
  · intro hall
    rw [SelectorCV.best, SelectorCV.loopState]
    rw [foldl_id_of_skip (SelectorCV.step envC) _ _
      (fun st i hi => by rw [SelectorCV.step_eq_pickBest, hall i hi]; rfl)]

/-- Counterexample environment for C5 as literally stated: candidate 2's only
fold raises at once; candidate 3 produces fold score 10 and then raises. -/
def cexCV : CVEnv Unit :=
  ⟨2, 3, fun i => if i = 2 then .ok [.error ()] else .ok [.ok 10, .error ()],
    fun _ => .ok ()⟩

/-- Counterexample to C5 as stated: in `SelectorCV` every candidate raises, so
under the claim each should be skipped without affecting the comparison and
the best state count should default to `min_n_components = 2`; the code
instead lets candidate 3's pre-raise fold score compete and win. -/
theorem cv_partial_candidate_cex :
    SelectorCV.best cexCV = 3 ∧ cexCV.minN = 2 := ⟨by decide, rfl⟩

/-- Environments on which every candidate fails, for the C5 witness. -/
def wFailB : BICEnv Unit := ⟨2, 3, fun _ => .error (), [], 0, fun _ => .error ()⟩

/-- DIC environment whose single label forces `ZeroDivisionError` everywhere. -/
def wFailD : DICEnv Unit := ⟨2, 3, "A", ["A"], fun _ _ => .ok 0, fun _ => .error ()⟩

/-- CV environment whose split raises for every candidate. -/
def wFailC : CVEnv Unit := ⟨2, 3, fun _ => .error (), fun _ => .ok ()⟩

/-- Witness for `selector_skip_and_default`: with every candidate failing, all
three selectors default to `min_n_components = 2`. -/
theorem selector_skip_and_default_witness :
    SelectorBIC.best wFailB = 2 ∧ SelectorDIC.best wFailD = 2 ∧
      SelectorCV.best wFailC = 2 := by
  have h := selector_skip_and_default wFailB wFailD wFailC
  exact ⟨h.2.2.2.1 (by decide), h.2.2.2.2.1 (by decide), h.2.2.2.2.2.1 (by decide)⟩

/-- Lemma: `find?` at a given decomposition of the list. -/
theorem find_at_decomp {α : Type} (pred : α → Bool) (l pre : List α) (q : α)
    (suf : List α) (hdec : l = pre ++ q :: suf)
    (hpre : ∀ x ∈ pre, pred x = false) (hq : pred q = true) :
    l.find? pred = some q := by
  rw [hdec]
  exact find_at_position pred pre q suf hpre hq

namespace Recognizer

/-- The scores recorded for one item are exactly one entry per word, in word
order, with the `-inf` sentinel (`none`) exactly where scoring raised. -/
theorem itemLoop_vals (env : RecEnv) (i : ℕ) :
    ∀ (ws : List String)
      (st0 r : List (String × Option ℚ) × Option ℚ × Option String),
      itemLoop env i ws st0 = .ok r →
      r.1 = st0.1 ++ ws.map (fun w => (w, exToOpt (env.score w i))) := by
  intro ws
  induction ws with
  | nil =>
    intro st0 r h
    rw [itemLoop] at h
    rw [← Except.ok.inj h]
    simp
  | cons w ws ih =>
    intro st0 r h
    cases hgi : env.get_item i with
    | error e =>
      rw [itemLoop, hgi] at h
      exact Except.noConfusion h
    | ok u =>
      simp only [itemLoop, hgi] at h
      have hrec := ih _ r h
      rw [hrec]
      by_cases hc : gtNegInf (exToOpt (env.score w i)) st0.2.1 = true
      · simp only [if_pos hc]
        simp
      · simp only [if_neg hc]
        simp

/-- The running `(guess, max_l)` pair of one item is a strict-improvement run
over the word scores in word order. -/
theorem itemLoop_guess (env : RecEnv) (i : ℕ) :
    ∀ (ws : List String)
      (st0 r : List (String × Option ℚ) × Option ℚ × Option String),
      itemLoop env i ws st0 = .ok r →
      (r.2.2, r.2.1) = pickBest gtNegInf (st0.2.2, st0.2.1)
        (ws.map (fun w => (some w, exToOpt (env.score w i)))) := by
  intro ws
  induction ws with
  | nil =>
    intro st0 r h
    rw [itemLoop] at h
    rw [← Except.ok.inj h]
    rfl
  | cons w ws ih =>
    intro st0 r h
    cases hgi : env.get_item i with
    | error e =>
      rw [itemLoop, hgi] at h
      exact Except.noConfusion h
    | ok u =>
      simp only [itemLoop, hgi] at h
      have hrec := ih _ r h
      rw [hrec, List.map_cons, pickBest_cons]
      by_cases hc : gtNegInf (exToOpt (env.score w i)) st0.2.1 = true
      · simp only [if_pos hc]
        congr 1
        simp [pickStep, hc]
      · simp only [if_neg hc]
        congr 1
        simp [pickStep, hc]

/-- When item access succeeds, the word loop never raises. -/
theorem itemLoop_ok (env : RecEnv) (i : ℕ) (hgi : env.get_item i = .ok ()) :
    ∀ (ws : List String)
      (st0 : List (String × Option ℚ) × Option ℚ × Option String),
      ∃ r, itemLoop env i ws st0 = .ok r := by
  intro ws
  induction ws with
  | nil => intro st0; exact ⟨st0, rfl⟩
  | cons w ws ih =>
    intro st0
    rcases ih (if gtNegInf (exToOpt (env.score w i)) st0.2.1
        then (st0.1 ++ [(w, exToOpt (env.score w i))], exToOpt (env.score w i), some w)
        else (st0.1 ++ [(w, exToOpt (env.score w i))], st0.2.1, st0.2.2)) with ⟨r, hr⟩
    refine ⟨r, ?_⟩
    simp only [itemLoop, hgi]
    exact hr

/-- When item access always succeeds, the whole recogniser never raises. -/
theorem recognizeItems_ok (env : RecEnv) (hgi : ∀ i, env.get_item i = .ok ()) :
    ∀ idxs : List ℕ, ∃ pr, recognizeItems env idxs = .ok pr := by
  intro idxs
  induction idxs with
  | nil => exact ⟨([], []), rfl⟩
  | cons i idxs ih =>
    rcases itemLoop_ok env i (hgi i) env.words ([], none, none) with ⟨st, hst⟩
    rcases ih with ⟨pr2, hpr2⟩
    refine ⟨(st.1 :: pr2.1, st.2.2 :: pr2.2), ?_⟩
    simp only [recognizeItems, recognizeItem, hst, hpr2]

/-- Positional decomposition of a successful run: output lengths match the
index list and each position is a successful item run. -/
theorem recognizeItems_spec (env : RecEnv) :
    ∀ (idxs : List ℕ)
      (pr : List (List (String × Option ℚ)) × List (Option String)),
      recognizeItems env idxs = .ok pr →
      pr.1.length = idxs.length ∧ pr.2.length = idxs.length ∧
      ∀ k, k < idxs.length →
        ∃ m, recognizeItem env (idxs.getD k 0) =
          .ok (pr.1.getD k [], m, pr.2.getD k none) := by
  intro idxs
  induction idxs with
  | nil =>
    intro pr h
    rw [recognizeItems] at h
    rw [← Except.ok.inj h]
    exact ⟨rfl, rfl, fun k hk => absurd hk (Nat.not_lt_zero k)⟩
  | cons i idxs ih =>
    intro pr h
    cases hri : recognizeItem env i with
    | error e =>
      rw [recognizeItems, hri] at h
      exact Except.noConfusion h
    | ok st =>
      cases hrr : recognizeItems env idxs with
      | error e =>
        rw [recognizeItems, hri, hrr] at h
        exact Except.noConfusion h
      | ok pr2 =>
        simp only [recognizeItems, hri, hrr] at h
        rw [← Except.ok.inj h]
        rcases ih pr2 hrr with ⟨hl1, hl2, hk⟩
        refine ⟨by simp [hl1], by simp [hl2], ?_⟩
        intro k hk2
        cases k with
        | zero =>
          refine ⟨st.2.1, ?_⟩
          simp only [List.getD_cons_zero]
          exact hri
        | succ k =>
          simp only [List.getD_cons_succ]
          exact hk k (by simpa using hk2)

/-- Every recorded score map of a successful run comes from a successful item
run. -/
theorem recognizeItems_vals (env : RecEnv) :
    ∀ (idxs : List ℕ)
      (pr : List (List (String × Option ℚ)) × List (Option String)),
      recognizeItems env idxs = .ok pr →
      ∀ pm ∈ pr.1, ∃ j r, recognizeItem env j = .ok r ∧ r.1 = pm := by
  intro idxs
  induction idxs with
  | nil =>
    intro pr h
    rw [recognizeItems] at h
    rw [← Except.ok.inj h]
    intro pm hpm
    exact absurd hpm (List.not_mem_nil pm)
  | cons i idxs ih =>
    intro pr h
    cases hri : recognizeItem env i with
    | error e =>
      rw [recognizeItems, hri] at h
      exact Except.noConfusion h
    | ok st =>
      cases hrr : recognizeItems env idxs with
      | error e =>
        rw [recognizeItems, hri, hrr] at h
        exact Except.noConfusion h
      | ok pr2 =>
        simp only [recognizeItems, hri, hrr] at h
        rw [← Except.ok.inj h]
        intro pm hpm
        rcases List.mem_cons.mp hpm with rfl | hpm
        · exact ⟨i, st, hri, rfl⟩
        · exact ih pr2 hrr pm hpm

end Recognizer

/-- The strict-improvement run over tagged scores lands on the first arg-max
label, provided some score is finite. -/
theorem pickBest_argmaxFirst (pairs : List (String × Option ℚ))
    (hsucc : ∃ p ∈ pairs, p.2 ≠ none) :
    (pickBest gtNegInf ((none : Option String), (none : Option ℚ))
      (pairs.map (fun p => (some p.1, p.2)))).1 = argmaxFirst pairs := by
  rcases pickBest_spec gtNegInf gtNegInf_trans gtNegInf_irrefl gtNegInf_lin
      (pairs.map (fun p => (some p.1, p.2))) (none, none) with
    ⟨_, h2⟩ | ⟨pre, q, suf, hdec, hres, _, hpre, hopt⟩
  · rcases hsucc with ⟨p, hp, hpne⟩
    cases hv : p.2 with
    | none => exact absurd hv hpne
    | some v =>
      have := h2 (some p.1, p.2) (List.mem_map_of_mem _ hp)
      rw [hv] at this
      simp [gtNegInf, strictOpt] at this
  · rcases map_decomp (fun p => ((some p.1 : Option String), p.2)) pairs pre q suf
        hdec with ⟨pre1, p0, suf1, hld, hgq, hprem, _⟩
    have hp0mem : p0 ∈ pairs := by
      rw [hld]
      exact List.mem_append_right _ (List.mem_cons_self _ _)
    have hq2 : q.2 = p0.2 := by rw [← hgq]
    have hpredq : pairs.all (fun y => ! gtNegInf y.2 p0.2) = true := by
      apply List.all_eq_true.mpr
      intro y hy
      have := hopt (some y.1, y.2) (List.mem_map_of_mem _ hy)
      rw [hq2] at this
      simp only [this, Bool.not_false]
    have hprefalse : ∀ x ∈ pre1, pairs.all (fun y => ! gtNegInf y.2 x.2) = false := by
      intro x hx
      apply Bool.eq_false_iff.mpr
      intro hall
      have hbeats := hpre (some x.1, x.2) (by rw [hprem]; exact List.mem_map_of_mem _ hx)
      rw [hq2] at hbeats
      have := List.all_eq_true.mp hall p0 hp0mem
      rw [hbeats] at this
      simp at this
    have hfind := find_at_decomp (fun x => pairs.all (fun y => ! gtNegInf y.2 x.2))
      pairs pre1 p0 suf1 hld hprefalse hpredq
    rw [argmaxFirst, hfind, hres, ← hgq]
    rfl

/-- Counterexample environment for C2: one test item, one model, and a test
set whose `get_item_Xlengths` raises. -/
def cexRec : RecEnv := ⟨1, ["A"], fun _ => .error (), fun _ _ => .ok 5⟩

/-- Counterexample to C2 as stated: the `get_item_Xlengths` call sits outside
the `try` block, so a failing test-item access propagates out of
`recognize()` instead of being absorbed. -/
theorem recognize_raises_cex : Recognizer.recognize cexRec = .error () := rfl

/-- C2 (amended): no selector variant ever raises out of `select()` — the
result is always the absorbed `base_model` fit, whose only failure signal is
`None` — and `recognize()` never raises provided every test-item access
succeeds (a failing `get_item_Xlengths` does propagate); scoring failures
surface only as `-inf` entries. -/
theorem select_and_recognize_no_raise {M : Type} (envB : BICEnv M)
    (envD : DICEnv M) (envC : CVEnv M) (envK : ConstantEnv M) (env : RecEnv)
    (hgi : ∀ i, env.get_item i = .ok ()) :
    SelectorBIC.select envB = base_model envB.homeFit (SelectorBIC.best envB) ∧
    SelectorDIC.select envD = base_model envD.homeFit (SelectorDIC.best envD) ∧
    SelectorCV.select envC = base_model envC.homeFit (SelectorCV.best envC) ∧
    SelectorConstant.select envK = base_model envK.homeFit envK.n_constant ∧
    ∃ pr, Recognizer.recognize env = .ok pr :=
  ⟨rfl, rfl, rfl, rfl, Recognizer.recognizeItems_ok env hgi _⟩

/-- Recogniser environment with two models and successful item access. -/
def wRec : RecEnv :=
  ⟨1, ["A", "B"], fun _ => .ok (), fun w _ => if w = "A" then .ok 1 else .ok 2⟩

/-- Constant-selector environment for witnesses. -/
def wConst : ConstantEnv Unit := ⟨3, 2, 10, fun _ => .ok ()⟩

/-- Witness for `select_and_recognize_no_raise` at concrete environments. -/
theorem select_and_recognize_no_raise_witness :
    SelectorBIC.select wBIC = base_model wBIC.homeFit (SelectorBIC.best wBIC) ∧
    SelectorDIC.select wDIC = base_model wDIC.homeFit (SelectorDIC.best wDIC) ∧
    SelectorCV.select wCV = base_model wCV.homeFit (SelectorCV.best wCV) ∧
    SelectorConstant.select wConst = base_model wConst.homeFit wConst.n_constant ∧
    ∃ pr, Recognizer.recognize wRec = .ok pr :=
  select_and_recognize_no_raise wBIC wDIC wCV wConst wRec (fun _ => rfl)

/-- C6 (amended): for every test item, `recognize()` records one entry per
label with the log-likelihood of the item under that label's model and the
`-inf` sentinel exactly where scoring failed, and — whenever at least one
label's scoring succeeded — the guess is the arg-max label over these scores,
ties broken by the first label in the model collection's iteration order.
(When every label fails the guess is `None`, not a label; see C7.) -/
theorem recognize_argmax_guess (env : RecEnv)
    (pr : List (List (String × Option ℚ)) × List (Option String))
    (hok : Recognizer.recognize env = .ok pr) (i : ℕ) (hi : i < env.num_items)
    (hsucc : ∃ w ∈ env.words, exOk (env.score w i) = true) :
    pr.1.getD i [] = env.words.map (fun w => (w, exToOpt (env.score w i))) ∧
    pr.2.getD i none = argmaxFirst (pr.1.getD i []) := by
  have hspec := Recognizer.recognizeItems_spec env (List.range env.num_items) pr hok
  have hlen : i < (List.range env.num_items).length := by simpa using hi
  rcases hspec.2.2 i hlen with ⟨m, hitem⟩
  have hidx : (List.range env.num_items).getD i 0 = i := by
    rw [List.getD_eq_getElem _ _ hlen]
    exact List.getElem_range _ hlen
  rw [hidx] at hitem
  have hvals := Recognizer.itemLoop_vals env i env.words ([], none, none) _ hitem
  simp only [List.nil_append] at hvals
  refine ⟨hvals, ?_⟩
  have hguess := Recognizer.itemLoop_guess env i env.words ([], none, none) _ hitem
  have hmm : (pr.1.getD i []).map (fun p => ((some p.1 : Option String), p.2)) =
      env.words.map (fun w => ((some w : Option String), exToOpt (env.score w i))) := by
    rw [hvals, List.map_map]
    rfl
  have hargs : ∃ p ∈ pr.1.getD i [], p.2 ≠ none := by
    rcases hsucc with ⟨w, hw, hww⟩
    refine ⟨(w, exToOpt (env.score w i)), ?_, ?_⟩
    · rw [hvals]
      exact List.mem_map_of_mem _ hw
    · cases hsc : env.score w i with
      | ok v => simp [exToOpt, hsc]
      | error e => rw [hsc] at hww; simp [exOk] at hww
  have hfin := pickBest_argmaxFirst (pr.1.getD i []) hargs
  rw [hmm, ← hguess] at hfin
  exact hfin

/-- Counterexample environment for C6: the only label's scoring always
raises. -/
def cexRec6 : RecEnv := ⟨1, ["A"], fun _ => .ok (), fun _ _ => .error ()⟩

/-- Counterexample to C6 as stated: with every label's score at `-inf`, the
arg-max rule with first-label tie-break would guess the first label, but the
code's strict `>` against an initial `-inf` leaves the guess `None`. -/
theorem recognize_allfail_argmax_cex :
    Recognizer.recognize cexRec6 = .ok ([[("A", none)]], [none]) ∧
    argmaxFirst [("A", (none : Option ℚ))] = some "A" ∧
    (none : Option String) ≠ some "A" :=
  ⟨rfl, rfl, by simp⟩

/-- Witness for `recognize_argmax_guess` at a concrete environment. -/
theorem recognize_argmax_guess_witness :
    ([[("A", (some 1 : Option ℚ)), ("B", some 2)]] : List (List (String × Option ℚ))).getD 0 [] =
      wRec.words.map (fun w => (w, exToOpt (wRec.score w 0))) ∧
    ([some "B"] : List (Option String)).getD 0 none =
      argmaxFirst (([[("A", (some 1 : Option ℚ)), ("B", some 2)]] :
        List (List (String × Option ℚ))).getD 0 []) :=
  recognize_argmax_guess wRec ([[("A", some 1), ("B", some 2)]], [some "B"])
    (by
      simp [Recognizer.recognize, Recognizer.recognizeItems, Recognizer.recognizeItem,
        Recognizer.itemLoop, wRec, exToOpt, gtNegInf, strictOpt, List.range,
        List.range.loop])
    0 (by decide) ⟨"A", by simp [wRec], by simp [wRec, exOk]⟩

/-- C7: if scoring fails for every label of a test item, the guess recorded
for that item is `None` rather than any label, because the best-guess update
compares with strict `>` against an initial `-inf` maximum. -/
theorem recognize_allfail_guess_none (env : RecEnv)
    (pr : List (List (String × Option ℚ)) × List (Option String))
    (hok : Recognizer.recognize env = .ok pr) (i : ℕ) (hi : i < env.num_items)
    (hfail : ∀ w ∈ env.words, env.score w i = .error ()) :
    pr.2.getD i none = none := by
  have hspec := Recognizer.recognizeItems_spec env (List.range env.num_items) pr hok
  have hlen : i < (List.range env.num_items).length := by simpa using hi
  rcases hspec.2.2 i hlen with ⟨m, hitem⟩
  have hidx : (List.range env.num_items).getD i 0 = i := by
    rw [List.getD_eq_getElem _ _ hlen]
    exact List.getElem_range _ hlen
  rw [hidx] at hitem
  have hguess := Recognizer.itemLoop_guess env i env.words ([], none, none) _ hitem
  have hallnone : ∀ p ∈ env.words.map
      (fun w => ((some w : Option String), exToOpt (env.score w i))),
      p.2 = (none : Option ℚ) := by
    intro p hp
    rcases List.mem_map.mp hp with ⟨w, hw, rfl⟩
    simp [hfail w hw, exToOpt]
  have hstay : pickBest gtNegInf ((none : Option String), (none : Option ℚ))
      (env.words.map (fun w => (some w, exToOpt (env.score w i)))) = (none, none) := by
    rcases pickBest_spec gtNegInf gtNegInf_trans gtNegInf_irrefl gtNegInf_lin
        (env.words.map (fun w => ((some w : Option String), exToOpt (env.score w i))))
        (none, none) with
      ⟨h1, _⟩ | ⟨pre, q, suf, hdec, _, hqs, _, _⟩
    · exact h1
    · have hq : q ∈ env.words.map
          (fun w => ((some w : Option String), exToOpt (env.score w i))) := by
        rw [hdec]
        exact List.mem_append_right _ (List.mem_cons_self _ _)
      rw [hallnone q hq] at hqs
      simp [gtNegInf, strictOpt] at hqs
  rw [hstay] at hguess
  exact congrArg Prod.fst hguess

/-- Witness for `recognize_allfail_guess_none` at a concrete environment. -/
theorem recognize_allfail_guess_none_witness :
    ([none] : List (Option String)).getD 0 none = none :=
  recognize_allfail_guess_none cexRec6 ([[("A", none)]], [none]) rfl 0 (by decide)
    (fun w _ => rfl)

/-- C9: on a successful run, `recognize()` returns two parallel lists of
length `test_set.num_items`, and every per-item probability map has exactly
one entry per label of the model collection, in iteration order. -/
theorem recognize_alignment (env : RecEnv)
    (pr : List (List (String × Option ℚ)) × List (Option String))
    (hok : Recognizer.recognize env = .ok pr) :
    pr.1.length = env.num_items ∧ pr.2.length = env.num_items ∧
    (∀ pm ∈ pr.1, pm.map Prod.fst = env.words) ∧
    (env.words.Nodup →
      ∀ pm ∈ pr.1, ∀ w ∈ env.words, (pm.map Prod.fst).count w = 1) := by
  have hspec := Recognizer.recognizeItems_spec env (List.range env.num_items) pr hok
  have hv := Recognizer.recognizeItems_vals env (List.range env.num_items) pr hok
  have hkeys : ∀ pm ∈ pr.1, pm.map Prod.fst = env.words := by
    intro pm hpm
    rcases hv pm hpm with ⟨j, r, hr, hrm⟩
    have hvals := Recognizer.itemLoop_vals env j env.words ([], none, none) r hr
    rw [← hrm, hvals]
    rw [List.nil_append, List.map_map]
    exact List.map_id env.words
  refine ⟨by simpa using hspec.1, by simpa using hspec.2.1, hkeys, ?_⟩
  intro hnd pm hpm w hw
  rw [hkeys pm hpm]
  exact List.count_eq_one_of_mem hnd hw

/-- Witness for `recognize_alignment` at a concrete environment. -/
theorem recognize_alignment_witness :
    ([[("A", (some 1 : Option ℚ)), ("B", some 2)]] :
      List (List (String × Option ℚ))).length = wRec.num_items ∧
    ([some "B"] : List (Option String)).length = wRec.num_items ∧
    (∀ pm ∈ ([[("A", (some 1 : Option ℚ)), ("B", some 2)]] :
      List (List (String × Option ℚ))), pm.map Prod.fst = wRec.words) ∧
    (wRec.words.Nodup →
      ∀ pm ∈ ([[("A", (some 1 : Option ℚ)), ("B", some 2)]] :
        List (List (String × Option ℚ))),
        ∀ w ∈ wRec.words, (pm.map Prod.fst).count w = 1) :=
  recognize_alignment wRec ([[("A", some 1), ("B", some 2)]], [some "B"])
    (by
      simp [Recognizer.recognize, Recognizer.recognizeItems, Recognizer.recognizeItem,
        Recognizer.itemLoop, wRec, exToOpt, gtNegInf, strictOpt, List.range,
        List.range.loop])

/-- C10: `SelectorConstant.select()` ignores the candidate search range
entirely — its result depends only on `n_constant` and the fitting adapter —
and returns a model fit at exactly `n_constant` states, or `None` when that
single fit fails. -/
theorem selector_constant_spec {M : Type} (e1 e2 : ConstantEnv M)
    (hn : e1.n_constant = e2.n_constant) (hf : e1.homeFit = e2.homeFit) :
    SelectorConstant.select e1 = base_model e1.homeFit e1.n_constant ∧
    SelectorConstant.select e1 = SelectorConstant.select e2 ∧
    (e1.homeFit e1.n_constant = .error () → SelectorConstant.select e1 = none) := by
  refine ⟨rfl, ?_, ?_⟩
  · rw [SelectorConstant.select, SelectorConstant.select, hn, hf]
  · intro h
    rw [SelectorConstant.select, base_model, h]

/-- Constant-selector environments for the C10 witness: same `n_constant` and
adapter, different search ranges, failing fit. -/
def wConstF : ConstantEnv Unit := ⟨3, 2, 10, fun _ => .error ()⟩

/-- Same selector configuration with a different (ignored) search range. -/
def wConstF2 : ConstantEnv Unit := ⟨3, 0, 99, fun _ => .error ()⟩

/-- Witness for `selector_constant_spec` at concrete environments. -/
theorem selector_constant_spec_witness :
    SelectorConstant.select wConstF = base_model wConstF.homeFit wConstF.n_constant ∧
    SelectorConstant.select wConstF = SelectorConstant.select wConstF2 ∧
    (wConstF.homeFit wConstF.n_constant = .error () →
      SelectorConstant.select wConstF = none) :=
  selector_constant_spec wConstF wConstF2 rfl rfl

end AslRecognizer
